import Mathlib

/-!
Verification of the caching and query-acceleration layer of the job-board
repository: `MemoryCacheService` (src/common/services/memory-cache.service.ts),
`CacheService` (src/common/services/cache.service.ts) and
`QueryOptimizerService` (src/common/services/query-optimizer.service.ts),
shallowly embedded in Lean.

Conventions of the embedding:
* A JavaScript `Map` is an insertion-ordered association list
  `List (String × β)`: `Map.get` looks up the first (unique) entry,
  `Map.set` overwrites in place or appends, `Map.delete` removes the entry.
* `Date.now()` is an explicit `now : Int` argument (milliseconds).
* A call that may throw is an `Except String` value; `try/catch` becomes a
  `match` on that value.
* Remote (Redis) client calls are oracles passed as arguments, since their
  outcome depends on the network.
-/

namespace JobBoard

/-! ### JavaScript `Map` as an insertion-ordered association list -/

/-- JS `map.get k`: the value stored under `k`, if present. -/
def mapGet (k : String) : List (String × β) → Option β
  | [] => none
  | (k', v) :: rest => if k' = k then some v else mapGet k rest

/-- JS `map.set k v`: overwrite in place if `k` is present (keeping its
insertion position), otherwise append at the end. -/
def mapSet (k : String) (v : β) : List (String × β) → List (String × β)
  | [] => [(k, v)]
  | (k', v') :: rest => if k' = k then (k, v) :: rest else (k', v') :: mapSet k v rest

/-- JS `map.delete k`: remove the entry stored under `k` (no-op when absent). -/
def mapDelete (k : String) (m : List (String × β)) : List (String × β) :=
  m.filter (fun e => !(e.1 == k))

theorem mapGet_mapSet_self (k : String) (v : β) (m : List (String × β)) :
    mapGet k (mapSet k v m) = some v := by
  induction m with
  | nil => simp [mapGet, mapSet]
  | cons e rest ih =>
    by_cases h : e.1 = k
    · simp [mapGet, mapSet, h]
    · simp [mapGet, mapSet, h, ih]

theorem mapGet_mapDelete_self (k : String) (m : List (String × β)) :
    mapGet k (mapDelete k m) = none := by
  induction m with
  | nil => simp [mapGet, mapDelete]
  | cons e rest ih =>
    by_cases h : e.1 = k
    · simpa [mapDelete, h] using ih
    · simpa [mapDelete, mapGet, h] using ih

theorem length_mapSet_le (k : String) (v : β) (m : List (String × β)) :
    (mapSet k v m).length ≤ m.length + 1 := by
  induction m with
  | nil => simp [mapSet]
  | cons e rest ih =>
    by_cases h : e.1 = k
    · simp [mapSet, h]
    · simpa [mapSet, h] using Nat.succ_le_succ ih

theorem keys_mapSet (k : String) (v : β) (m : List (String × β)) :
    (mapSet k v m).map Prod.fst =
      if k ∈ m.map Prod.fst then m.map Prod.fst else m.map Prod.fst ++ [k] := by
  induction m with
  | nil => simp [mapSet]
  | cons e rest ih =>
    by_cases hk : e.1 = k
    · subst hk
      simp [mapSet]
    · have hne : ¬ (k = e.1) := fun h => hk h.symm
      simp only [mapSet, hk, if_false, List.map_cons, ih, List.mem_cons, hne, false_or]
      by_cases hmem : k ∈ rest.map Prod.fst <;> simp [hmem]

theorem keys_nodup_mapSet (k : String) (v : β) (m : List (String × β))
    (h : (m.map Prod.fst).Nodup) : ((mapSet k v m).map Prod.fst).Nodup := by
  rw [keys_mapSet]
  by_cases hmem : k ∈ m.map Prod.fst
  · simpa [hmem] using h
  · simp only [hmem, if_false]
    rw [List.nodup_append]
    refine ⟨h, List.nodup_singleton k, ?_⟩
    intro a ha hb
    rw [List.mem_singleton] at hb
    exact hmem (hb ▸ ha)

theorem keys_nodup_mapDelete (k : String) (m : List (String × β))
    (h : (m.map Prod.fst).Nodup) : ((mapDelete k m).map Prod.fst).Nodup := by
  have hsub : (mapDelete k m).map Prod.fst |>.Sublist (m.map Prod.fst) :=
    (List.filter_sublist m).map Prod.fst
  exact hsub.nodup h

/-- Deleting, one after another, every key of a list `ks` from the map is the
same as filtering out all entries whose key lies in `ks`. -/
theorem foldl_mapDelete_eq_filter (ks : List String) (m : List (String × β)) :
    ks.foldl (fun acc k => mapDelete k acc) m = m.filter (fun e => decide (e.1 ∉ ks)) := by
  induction ks generalizing m with
  | nil => simp
  | cons k ks ih =>
    rw [List.foldl_cons, ih, mapDelete, List.filter_filter]
    apply List.filter_congr
    intro e _
    by_cases h1 : e.1 ∈ ks <;> by_cases h2 : e.1 = k <;> simp [h1, h2]

/-! ### MemoryCacheService (src/common/services/memory-cache.service.ts)

The private field `cache : Map<string, CacheItem<any>>` is the state; every
method is a function of the state (and of the current time `now`, standing
for `Date.now()`). `get` and `exists` return the new state as well, because
they delete expired entries lazily. -/

/-- Entry type of `MemoryCacheService`: `interface CacheItem<T> { value: T; expiresAt: number }`. -/
structure CacheItem (α : Type) where
  value : α
  expiresAt : Int
deriving DecidableEq, Repr

namespace MemoryCache

/-- The `cache` map of `MemoryCacheService`. -/
abbrev Store (α : Type) := List (String × CacheItem α)

/-- `private readonly maxSize = 1000`. -/
def maxSize : Nat := 1000

/-- `Math.floor(this.maxSize * 0.1)` evaluates to `100` (the double product
`1000 * 0.1` rounds to exactly `100.0`). -/
def evictCount : Nat := 100

/-- `async get<T>(key)`: absent if missing; if `Date.now() > item.expiresAt`
the entry is deleted and absent is returned; otherwise the stored value. -/
def get (c : Store α) (k : String) (now : Int) : Option α × Store α :=
  match mapGet k c with
  | none => (none, c)
  | some item =>
    if item.expiresAt < now then (none, mapDelete k c) else (some item.value, c)

/-- `private evictOldest()`: take a snapshot of the key array and delete its
first `Math.floor(maxSize * 0.1)` keys (the loop guard `i < itemsToRemove &&
keys.length > 0` deletes `keys[i]` for `i < 100`; a `keys[i]` past the end of
the array is `undefined` and its deletion is a no-op). -/
def evictOldest (c : Store α) : Store α :=
  ((c.map Prod.fst).take evictCount).foldl (fun acc k => mapDelete k acc) c

/-- `async set<T>(key, value, ttlSeconds = 300)`: evict when
`cache.size >= maxSize`, then store `{ value, expiresAt: Date.now() + ttlSeconds * 1000 }`.
There is no validation of `ttlSeconds`. -/
def set (c : Store α) (k : String) (v : α) (ttlSeconds : Int) (now : Int) : Store α :=
  let c1 := if maxSize ≤ c.length then evictOldest c else c
  mapSet k ⟨v, now + ttlSeconds * 1000⟩ c1

/-- `async del(key)`. -/
def del (c : Store α) (k : String) : Store α :=
  mapDelete k c

/-- `async exists(key)`: same lazy-expiry semantics as `get`. -/
def existsKey (c : Store α) (k : String) (now : Int) : Bool × Store α :=
  match mapGet k c with
  | none => (false, c)
  | some item =>
    if item.expiresAt < now then (false, mapDelete k c) else (true, c)

/-- `private cleanup()`: the periodic sweep; collects every key whose entry
satisfies `now > item.expiresAt` and deletes them. -/
def cleanup (c : Store α) (now : Int) : Store α :=
  let keysToDelete := (c.filter (fun e => decide (e.2.expiresAt < now))).map Prod.fst
  keysToDelete.foldl (fun acc k => mapDelete k acc) c

end MemoryCache

/-! ### The regular expression built by `delPattern`

`delPattern` runs `new RegExp(pattern.replace(/\*/g, '.*'))` and then
`regex.test(key)`. The translation below models the semantics of that
regular expression for patterns whose characters are either the wildcard
`*`, the metacharacter `.`, or literal characters (the replacement itself
introduces only `.` and `*`; the claims use no other metacharacter).
`test` is an unanchored search: it succeeds if the expression matches at
any position of the key. -/

/-- `pattern.replace(/\*/g, '.*')`: replace every `*` by `.*`. -/
def globTranslate (p : List Char) : List Char :=
  p.foldr (fun c acc => if c = '*' then '.' :: '*' :: acc else c :: acc) []

/-- Matching of the translated expression against a prefix of the text
(the tail of the text may remain): `.` followed by `*` is the Kleene
closure `.*` of "any character", a lone `.` matches any one character, and
every other character matches itself. The `fuel` argument only forces
termination; `reMatch` supplies enough of it. -/
def reMatchFuel : Nat → List Char → List Char → Bool
  | 0, _, _ => false
  | _ + 1, [], _ => true
  | fuel + 1, '.' :: '*' :: ps, ks =>
    reMatchFuel fuel ps ks ||
      (match ks with
       | [] => false
       | _ :: ks' => reMatchFuel fuel ('.' :: '*' :: ps) ks')
  | fuel + 1, '.' :: ps, _ :: ks => reMatchFuel fuel ps ks
  | fuel + 1, p :: ps, k :: ks => p == k && reMatchFuel fuel ps ks
  | _ + 1, _ :: _, [] => false

/-- Match the translated expression at the start of the text. -/
def reMatch (ps ks : List Char) : Bool :=
  reMatchFuel (ps.length + ks.length + 1) ps ks

/-- Unanchored search, as `RegExp.prototype.test` performs: try to match at
every position of the text. -/
def reSearchFuel : Nat → List Char → List Char → Bool
  | 0, _, _ => false
  | fuel + 1, ps, ks =>
    reMatch ps ks ||
      (match ks with
       | [] => false
       | _ :: ks' => reSearchFuel fuel ps ks')

/-- `new RegExp(pattern.replace(/\*/g, '.*')).test(key)`. -/
def reTest (pattern key : String) : Bool :=
  reSearchFuel (key.data.length + 1) (globTranslate pattern.data) key.data

namespace MemoryCache

/-- `async delPattern(pattern)`: build the regex, collect every key the
regex `test`s positively, then delete those keys. -/
def delPattern (c : Store α) (pattern : String) : Store α :=
  let keysToDelete := (c.map Prod.fst).filter (fun k => reTest pattern k)
  keysToDelete.foldl (fun acc k => mapDelete k acc) c

end MemoryCache

/-- Modelled from the spec: the matching the specification prescribes for
`InvalidationPattern`s — the glob is turned into an *anchored* regular
expression with every regex metacharacter except the wildcard `*`
*escaped*. Hence every non-`*` character of the pattern matches only
itself, `*` matches any run of characters, and the whole key must match.
The `fuel` argument only forces termination; `specGlobMatch` supplies
enough of it. -/
def specGlobMatchFuel : Nat → List Char → List Char → Bool
  | 0, _, _ => false
  | _ + 1, [], [] => true
  | _ + 1, [], _ :: _ => false
  | fuel + 1, '*' :: ps, ks =>
    specGlobMatchFuel fuel ps ks ||
      (match ks with
       | [] => false
       | _ :: ks' => specGlobMatchFuel fuel ('*' :: ps) ks')
  | fuel + 1, p :: ps, k :: ks => p == k && specGlobMatchFuel fuel ps ks
  | _ + 1, _ :: _, [] => false

/-- Modelled from the spec: anchored, fully escaped glob matching of a
whole key against a pattern. -/
def specGlobMatch (pattern key : String) : Bool :=
  specGlobMatchFuel (pattern.data.length + key.data.length + 1) pattern.data key.data

/-! ### CacheService (src/common/services/cache.service.ts)

The coordinator: try Redis when available, fall back to
`MemoryCacheService` on unavailability or on a thrown error. Each Redis
client call — and each local call, whose own failure the source also
catches — is an oracle of type `Except String _` passed as an argument
(`.error e` models a thrown exception `e`). `avail` models the guard
`this.redisAvailable && this.redis && this.redis.isReady`. For `get`,
`remoteGet` models `redis.get` *composed with* the `JSON.parse` of its
payload, since a parse failure is thrown inside the same `try`. -/

namespace CacheService

/-- `async get<T>(key)`: try remote (or local directly when unavailable);
on a thrown error retry the local cache; if that throws too, return `null`. -/
def get (avail : Bool) (remoteGet localGet : Except String (Option α)) :
    Except String (Option α) :=
  match (if avail then remoteGet else localGet) with
  | .ok v => .ok v
  | .error _ =>
    match localGet with
    | .ok v => .ok v
    | .error _ => .ok none

/-- `async set(key, value, ttl = 300)`: try remote `setEx` (or local when
unavailable); on a thrown error retry the local cache, swallowing even a
failure of the fallback. -/
def set (avail : Bool) (remoteSet localSet : Except String Unit) : Except String Unit :=
  match (if avail then remoteSet else localSet) with
  | .ok _ => .ok ()
  | .error _ =>
    match localSet with
    | .ok _ => .ok ()
    | .error _ => .ok ()

/-- `async del(key)`: same try-remote-then-local-fallback shape as `set`. -/
def del (avail : Bool) (remoteDel localDel : Except String Unit) : Except String Unit :=
  match (if avail then remoteDel else localDel) with
  | .ok _ => .ok ()
  | .error _ =>
    match localDel with
    | .ok _ => .ok ()
    | .error _ => .ok ()

/-- `async delPattern(pattern)`: on the remote path enumerate the keys
matching the pattern (`redis.keys`) and bulk-delete them when there are
any; fall back to the local `delPattern` on unavailability or error. -/
def delPattern (avail : Bool) (remoteKeys : Except String (List String))
    (remoteDel : Except String Unit) (localDelPattern : Except String Unit) :
    Except String Unit :=
  let attempt : Except String Unit :=
    if avail then
      match remoteKeys with
      | .error e => .error e
      | .ok keys => if 0 < keys.length then remoteDel else .ok ()
    else localDelPattern
  match attempt with
  | .ok _ => .ok ()
  | .error _ =>
    match localDelPattern with
    | .ok _ => .ok ()
    | .error _ => .ok ()

/-- `async exists(key)`: the remote path returns `redis.exists(key) === 1`;
on unavailability or error fall back to the local `exists`; if the
fallback throws too, return `false`. -/
def existsOp (avail : Bool) (remoteExists : Except String Int)
    (localExists : Except String Bool) : Except String Bool :=
  let attempt : Except String Bool :=
    if avail then
      match remoteExists with
      | .ok n => .ok (n == 1)
      | .error e => .error e
    else localExists
  match attempt with
  | .ok b => .ok b
  | .error _ =>
    match localExists with
    | .ok b => .ok b
    | .error _ => .ok false

/-- State of the remote (Redis) store as `increment` touches it: the
integer value and the TTL recorded per key. -/
structure RedisState where
  entries : List (String × Int)
  ttls : List (String × Int)
deriving DecidableEq, Repr

/-- `redis.incr(key)`: atomically add one to the value under `key`
(missing counts as `0`) and return the post-increment value. -/
def redisIncr (s : RedisState) (k : String) : Int × RedisState :=
  let newVal := (mapGet k s.entries).getD 0 + 1
  (newVal, { s with entries := mapSet k newVal s.entries })

/-- `redis.expire(key, ttl)`: record the TTL for `key`. -/
def redisExpire (s : RedisState) (k : String) (ttl : Int) : RedisState :=
  { s with ttls := mapSet k ttl s.ttls }

/-- `async increment(key, ttl = 300)`, on the path where the remote is
available and every remote call succeeds: `incr`, then `expire` exactly
when the post-increment value equals `1`, and return the post-increment
value. The unavailable branch simulates the counter on the memory cache.
(The surrounding `catch`, which returns `0` on a thrown error, is outside
this success-path model.) -/
def increment (avail : Bool) (s : RedisState) (mem : MemoryCache.Store Int)
    (k : String) (ttl now : Int) : Int × RedisState × MemoryCache.Store Int :=
  if avail then
    let (result, s1) := redisIncr s k
    let s2 := if result == 1 then redisExpire s1 k ttl else s1
    (result, s2, mem)
  else
    let (g, mem1) := MemoryCache.get mem k now
    let current := g.getD 0
    let newValue := current + 1
    (newValue, s, MemoryCache.set mem1 k newValue ttl now)

end CacheService

/-! ### QueryOptimizerService (src/common/services/query-optimizer.service.ts)

The cache the optimizer consumes is the abstract `CacheStore` surface of
`CacheService`, modelled as a map from keys to a stored value together
with the TTL passed to `set` (so that what is written, and with which
TTL, is part of the state). The TypeORM query builder is modelled by its
result set: a list of rows, with `.skip(o).take(l).getMany()` as
`drop`/`take` and `.getCount()` as the length; a fetch that may throw is
an oracle of type `Except ε _`. -/

namespace QueryOptimizer

/-- `QueryOptimizationOptions`: every field optional (`none` = the key is
absent from the options object). -/
structure Options where
  enableCache : Option Bool := none
  cacheTTL : Option Int := none
  enablePagination : Option Bool := none
  maxLimit : Option Int := none
  enableIndexHints : Option Bool := none

/-- Result of `const opts = { ...this.defaultOptions, ...options }`. -/
structure MergedOptions where
  enableCache : Bool
  cacheTTL : Int
  enablePagination : Bool
  maxLimit : Int
  enableIndexHints : Bool
deriving DecidableEq, Repr

/-- The spread of `options` over `defaultOptions = { enableCache: true,
cacheTTL: 300, enablePagination: true, maxLimit: 100, enableIndexHints: true }`. -/
def mergeOptions (o : Options) : MergedOptions where
  enableCache := o.enableCache.getD true
  cacheTTL := o.cacheTTL.getD 300
  enablePagination := o.enablePagination.getD true
  maxLimit := o.maxLimit.getD 100
  enableIndexHints := o.enableIndexHints.getD true

/-- Cache state as the optimizer sees it: stored value plus the TTL it was
stored with. -/
abbrev Cache (β : Type) := List (String × β × Int)

/-- JS truthiness of the optional `cacheKey : string` parameter: absent
(`undefined`) and the empty string are falsy. -/
def keyTruthy : Option String → Bool
  | none => false
  | some s => !(s == "")

/-- The head of both optimize methods: `if (opts.enableCache && cacheKey)
{ const cachedResult = await this.cacheService.get(cacheKey); if
(cachedResult) return cachedResult; }` — a present cached value (object or
array) is always truthy. -/
def cachedLookup (opts : MergedOptions) (cacheKey : Option String) (cache : Cache β) :
    Option β :=
  if opts.enableCache && keyTruthy cacheKey then
    match cacheKey with
    | some k => (mapGet k cache).map Prod.fst
    | none => none
  else none

/-- Conditional `cacheService.set(cacheKey, result, opts.cacheTTL)`. -/
def cacheWrite (cacheKey : Option String) (v : β) (ttl : Int) (cache : Cache β) :
    Cache β :=
  match cacheKey with
  | some k => mapSet k (v, ttl) cache
  | none => cache

/-- `async optimizeQuery<T>(queryBuilder, cacheKey?, options = {})`: cache
probe, then `queryBuilder.getMany()`, then `if (opts.enableCache && cacheKey
&& result.length > 0)` store the result. The pair returned is (outcome,
cache state after the call). -/
def optimizeQuery (fetch : Except ε (List ρ)) (cacheKey : Option String)
    (options : Options) (cache : Cache (List ρ)) :
    Except ε (List ρ) × Cache (List ρ) :=
  let opts := mergeOptions options
  match cachedLookup opts cacheKey cache with
  | some r => (.ok r, cache)
  | none =>
    match fetch with
    | .error e => (.error e, cache)
    | .ok result =>
      let cache' :=
        if opts.enableCache && keyTruthy cacheKey && 0 < result.length then
          cacheWrite cacheKey result opts.cacheTTL cache
        else cache
      (.ok result, cache')

/-- `{ data: T[]; total: number }`. -/
structure PagedResult (ρ : Type) where
  data : List ρ
  total : Int
deriving DecidableEq, Repr

/-- `const safeLimit = Math.min(limit, opts.maxLimit || 100)` (`||` turns a
zero `maxLimit` back into `100`). -/
def safeLimitOf (limit : Int) (opts : MergedOptions) : Int :=
  min limit (if opts.maxLimit == 0 then 100 else opts.maxLimit)

/-- `const offset = (page - 1) * safeLimit`. -/
def offsetOf (page limit : Int) (opts : MergedOptions) : Int :=
  (page - 1) * safeLimitOf limit opts

/-- `async optimizePaginatedQuery<T>(queryBuilder, page, limit, cacheKey?,
options = {})`: clamp the limit, compute the offset, probe the cache, run
`queryBuilder.skip(offset).take(safeLimit).getMany()` and
`countQueryBuilder.getCount()` (via `Promise.all`; a rejection of either
rejects the whole call), then store `{ data, total }` when caching is on.
The pair returned is (outcome, cache state after the call). -/
def optimizePaginatedQuery (fetchPage : Int → Int → Except ε (List ρ))
    (fetchCount : Except ε Int) (page limit : Int) (cacheKey : Option String)
    (options : Options) (cache : Cache (PagedResult ρ)) :
    Except ε (PagedResult ρ) × Cache (PagedResult ρ) :=
  let opts := mergeOptions options
  let safeLimit := safeLimitOf limit opts
  let offset := offsetOf page limit opts
  match cachedLookup opts cacheKey cache with
  | some r => (.ok r, cache)
  | none =>
    match fetchPage offset safeLimit, fetchCount with
    | .ok data, .ok total =>
      let result : PagedResult ρ := ⟨data, total⟩
      let cache' :=
        if opts.enableCache && keyTruthy cacheKey then
          cacheWrite cacheKey result opts.cacheTTL cache
        else cache
      (.ok result, cache')
    | .error e, _ => (.error e, cache)
    | .ok _, .error e => (.error e, cache)

/-- `queryBuilder.skip(offset).take(limit).getMany()` over a result set
`rows` (TypeORM translates `skip`/`take` to SQL `OFFSET`/`LIMIT`). -/
def getManySkipTake (rows : List ρ) (offset limit : Int) : List ρ :=
  (rows.drop offset.toNat).take limit.toNat

/-! #### Cache-key generation

`generateCacheKey` runs `Object.keys(filters).sort()` — the default JS
`Array.sort`, which orders strings by their code-unit sequences. `strLe`
is that comparison (code points and UTF-16 code units order identically on
the characters at play), and `sortKeys` realizes the sort as an insertion
sort; any sorting algorithm yields the same, unique, sorted arrangement of
the distinct keys. -/

/-- Lexicographic comparison of character lists by code point. -/
def charsLe : List Char → List Char → Bool
  | [], _ => true
  | _ :: _, [] => false
  | a :: as, b :: bs => if a < b then true else if b < a then false else charsLe as bs

/-- Default `Array.sort` string comparison. -/
def strLe (a b : String) : Bool :=
  charsLe a.data b.data

/-- Insert a string into a `strLe`-sorted list, keeping it sorted. -/
def insertSorted (x : String) : List String → List String
  | [] => [x]
  | y :: ys => if strLe x y then x :: y :: ys else y :: insertSorted x ys

/-- `Object.keys(filters).sort()` as an insertion sort. -/
def sortKeys (l : List String) : List String :=
  l.foldr insertSorted []

/-- `generateKey(prefix, ...parts)` of CacheService:
`` `${prefix}:${parts.join(':')}` ``. -/
def generateKey (pre : String) (parts : List String) : String :=
  pre ++ ":" ++ String.intercalate ":" parts

/-- `generateCacheKey(entityName, operation, filters = {}, pagination?)`:
sort the filter keys, join each as `key:value` with `|`, append the
`p:page:limit` segment when pagination is given, and route through
`cacheService.generateKey('query', entityName, operation, filterKey,
paginationKey)`. Filter values are modelled as the strings their template
interpolation `${filters[key]}` produces. -/
def generateCacheKey (entityName operation : String)
    (filters : List (String × String)) (pagination : Option (Int × Int)) : String :=
  let filterKey := String.intercalate "|"
    ((sortKeys (filters.map Prod.fst)).map (fun k => k ++ ":" ++ (mapGet k filters).getD ""))
  let paginationKey :=
    match pagination with
    | some pl => "p:" ++ toString pl.1 ++ ":" ++ toString pl.2
    | none => ""
  generateKey "query" [entityName, operation, filterKey, paginationKey]

theorem charsLe_total (as bs : List Char) : charsLe as bs = true ∨ charsLe bs as = true := by
  induction as generalizing bs with
  | nil => left; rfl
  | cons a as ih =>
    cases bs with
    | nil => right; rfl
    | cons b bs =>
      rcases lt_trichotomy a b with h | h | h
      · left; simp [charsLe, h]
      · subst h
        rcases ih bs with h' | h'
        · left; simp [charsLe, lt_irrefl, h']
        · right; simp [charsLe, lt_irrefl, h']
      · right; simp [charsLe, h]

theorem charsLe_antisymm (as bs : List Char) (h1 : charsLe as bs = true)
    (h2 : charsLe bs as = true) : as = bs := by
  induction as generalizing bs with
  | nil =>
    cases bs with
    | nil => rfl
    | cons b bs => simp [charsLe] at h2
  | cons a as ih =>
    cases bs with
    | nil => simp [charsLe] at h1
    | cons b bs =>
      rcases lt_trichotomy a b with h | h | h
      · rw [charsLe, if_neg (asymm h), if_pos h] at h2
        exact absurd h2 (by simp)
      · subst h
        rw [charsLe, if_neg (lt_irrefl a), if_neg (lt_irrefl a)] at h1 h2
        rw [ih bs h1 h2]
      · rw [charsLe, if_neg (asymm h), if_pos h] at h1
        exact absurd h1 (by simp)

theorem charsLe_trans (as bs cs : List Char) (h1 : charsLe as bs = true)
    (h2 : charsLe bs cs = true) : charsLe as cs = true := by
  induction as generalizing bs cs with
  | nil => rfl
  | cons a as ih =>
    cases bs with
    | nil => simp [charsLe] at h1
    | cons b bs =>
      cases cs with
      | nil => simp [charsLe] at h2
      | cons c cs =>
        rcases lt_trichotomy a b with h | h | h
        · rcases lt_trichotomy b c with h' | h' | h'
          · simp [charsLe, lt_trans h h']
          · subst h'
            simp [charsLe, h]
          · simp [charsLe, asymm h', h'] at h2
        · subst h
          simp only [charsLe, lt_self_iff_false, if_false] at h1 h2
          rcases lt_trichotomy a c with h' | h' | h'
          · simp [charsLe, h']
          · subst h'
            simp only [lt_self_iff_false, if_false] at h2
            simp only [charsLe, lt_self_iff_false, if_false]
            exact ih bs cs h1 h2
          · simp [asymm h', h'] at h2
        · simp [charsLe, asymm h, h] at h1

theorem strLe_total (a b : String) : strLe a b = true ∨ strLe b a = true :=
  charsLe_total a.data b.data

theorem strLe_trans (a b c : String) (h1 : strLe a b = true) (h2 : strLe b c = true) :
    strLe a c = true :=
  charsLe_trans a.data b.data c.data h1 h2

theorem strLe_antisymm (a b : String) (h1 : strLe a b = true) (h2 : strLe b a = true) :
    a = b :=
  String.ext (charsLe_antisymm a.data b.data h1 h2)

theorem insertSorted_perm (x : String) (l : List String) :
    (insertSorted x l).Perm (x :: l) := by
  induction l with
  | nil => exact List.Perm.refl _
  | cons y ys ih =>
    by_cases h : strLe x y = true
    · simp [insertSorted, h]
    · simp only [insertSorted, h, if_false]
      exact ((ih.cons y).trans (List.Perm.swap x y ys))

theorem insertSorted_sorted (x : String) (l : List String)
    (h : l.Pairwise (fun a b => strLe a b = true)) :
    (insertSorted x l).Pairwise (fun a b => strLe a b = true) := by
  induction l with
  | nil => simp [insertSorted]
  | cons y ys ih =>
    rcases List.pairwise_cons.mp h with ⟨hy, hys⟩
    by_cases hxy : strLe x y = true
    · rw [insertSorted, if_pos hxy]
      refine List.pairwise_cons.mpr ⟨?_, h⟩
      intro z hz
      rcases List.mem_cons.mp hz with rfl | hz
      · exact hxy
      · exact strLe_trans x y z hxy (hy z hz)
    · rw [insertSorted, if_neg hxy]
      refine List.pairwise_cons.mpr ⟨?_, ih hys⟩
      intro z hz
      have hz' := (insertSorted_perm x ys).mem_iff.mp hz
      rcases List.mem_cons.mp hz' with hzx | hz'
      · rw [hzx]
        rcases strLe_total x y with h' | h'
        · exact absurd h' hxy
        · exact h'
      · exact hy z hz'

theorem sortKeys_perm (l : List String) : (sortKeys l).Perm l := by
  induction l with
  | nil => exact List.Perm.refl _
  | cons x xs ih =>
    exact (insertSorted_perm x (sortKeys xs)).trans (ih.cons x)

theorem sortKeys_sorted (l : List String) :
    (sortKeys l).Pairwise (fun a b => strLe a b = true) := by
  induction l with
  | nil => simp [sortKeys]
  | cons x xs ih => exact insertSorted_sorted x (sortKeys xs) ih

end QueryOptimizer

/-! ### Supporting lemmas -/

theorem mapGet_some_mem (k : String) (m : List (String × β)) (v : β)
    (h : mapGet k m = some v) : (k, v) ∈ m := by
  induction m with
  | nil => simp [mapGet] at h
  | cons e rest ih =>
    obtain ⟨k', v'⟩ := e
    by_cases he : k' = k
    · rw [mapGet, if_pos he] at h
      injection h with h
      subst h
      subst he
      exact List.mem_cons_self _ _
    · rw [mapGet, if_neg he] at h
      exact List.mem_cons_of_mem _ (ih h)

theorem mapGet_filter_notmem (k : String) (ks : List String) (m : List (String × β))
    (h : k ∈ ks) : mapGet k (m.filter (fun e => decide (e.1 ∉ ks))) = none := by
  induction m with
  | nil => rfl
  | cons e rest ih =>
    obtain ⟨k', v'⟩ := e
    by_cases hm : k' ∈ ks
    · have hd : (decide ((k', v').1 ∉ ks)) = false := by
        simp [hm]
      rw [List.filter_cons, hd]
      simp only [Bool.false_eq_true, if_false]
      exact ih
    · have hd : (decide ((k', v').1 ∉ ks)) = true := by
        simp [hm]
      rw [List.filter_cons, hd]
      simp only [if_true]
      have he : k' ≠ k := fun heq => hm (heq ▸ h)
      rw [mapGet, if_neg he]
      exact ih

theorem keys_nodup_foldl_mapDelete (ks : List String) (m : List (String × β))
    (h : (m.map Prod.fst).Nodup) :
    ((ks.foldl (fun acc k => mapDelete k acc) m).map Prod.fst).Nodup := by
  rw [foldl_mapDelete_eq_filter]
  exact ((List.filter_sublist m).map Prod.fst).nodup h

/-- Keeping the entries whose key is not among the first `n` keys is the
same as dropping the first `n` entries, when the keys are distinct. -/
theorem filter_keys_take_eq_drop (m : List (String × β)) (n : Nat)
    (h : (m.map Prod.fst).Nodup) :
    m.filter (fun e => decide (e.1 ∉ (m.map Prod.fst).take n)) = m.drop n := by
  induction m generalizing n with
  | nil => simp
  | cons x rest ih =>
    simp only [List.map_cons, List.nodup_cons] at h
    cases n with
    | zero =>
      simp only [List.take_zero, List.drop_zero]
      have : ∀ e ∈ x :: rest, (decide (e.1 ∉ ([] : List String))) = true := by
        intro e _
        simp
      exact List.filter_eq_self.mpr this
    | succ n =>
      simp only [List.map_cons, List.take_succ_cons, List.filter_cons, List.drop_succ_cons]
      have hx : (decide (x.1 ∉ x.1 :: (rest.map Prod.fst).take n)) = false := by
        simp
      rw [hx]
      simp only [Bool.false_eq_true, if_false]
      rw [← ih n h.2]
      apply List.filter_congr
      intro e he
      have hne : e.1 ≠ x.1 := by
        intro heq
        exact h.1 (heq ▸ List.mem_map_of_mem Prod.fst he)
      by_cases hmem : e.1 ∈ (rest.map Prod.fst).take n <;> simp [hmem, hne]

theorem evictOldest_eq_drop (c : MemoryCache.Store α)
    (h : (c.map Prod.fst).Nodup) :
    MemoryCache.evictOldest c = c.drop MemoryCache.evictCount := by
  unfold MemoryCache.evictOldest
  rw [foldl_mapDelete_eq_filter]
  exact filter_keys_take_eq_drop c _ h

/-! ### C1 — delPattern and the glob-to-regex translation -/

/-- C1 (counterexample): the claim says `delPattern` escapes every regex
metacharacter except `*` and anchors the pattern, so `"a.c"` would match
only the literal key `a.c` and `"user"` only the whole key `user`. The
code deletes the key `abc` for pattern `a.c` (the `.` keeps its regex
meaning) and the key `xuserx` for pattern `user` (substring match, no
anchoring), though neither key matches under the claimed semantics. -/
theorem delPattern_counterexample :
    (MemoryCache.delPattern
        ([("abc", ⟨1, 10⟩), ("xuserx", ⟨2, 10⟩)] : MemoryCache.Store Nat) "a.c"
      = [("xuserx", ⟨2, 10⟩)]) ∧
    specGlobMatch "a.c" "abc" = false ∧
    (MemoryCache.delPattern ([("xuserx", ⟨2, 10⟩)] : MemoryCache.Store Nat) "user" = []) ∧
    specGlobMatch "user" "xuserx" = false := by
  decide

/-- C1 (amended): `delPattern p` deletes exactly the keys in which the
*unanchored, unescaped* regular expression obtained from `p` by replacing
each `*` with `.*` matches somewhere: remaining metacharacters such as `.`
keep their regex meaning, and a key is deleted whenever any substring of
it matches, not only when the whole key does. -/
theorem delPattern_deletes_unanchored_matches (c : MemoryCache.Store α) (p : String) :
    MemoryCache.delPattern c p = c.filter (fun e => !(reTest p e.1)) := by
  unfold MemoryCache.delPattern
  rw [foldl_mapDelete_eq_filter]
  apply List.filter_congr
  intro e he
  by_cases h : reTest p e.1 = true
  · have hmem : e.1 ∈ (c.map Prod.fst).filter (fun k => reTest p k) :=
      List.mem_filter.mpr ⟨List.mem_map_of_mem Prod.fst he, h⟩
    simp [hmem, h]
  · have hmem : e.1 ∉ (c.map Prod.fst).filter (fun k => reTest p k) := by
      intro hmem
      exact h (List.mem_filter.mp hmem).2
    simp [hmem, Bool.eq_false_iff.mpr h]

/-! ### C6 — capacity eviction and bounded growth -/

theorem keys_nodup_set (c : MemoryCache.Store α) (k : String) (v : α) (ttl now : Int)
    (h : (c.map Prod.fst).Nodup) :
    ((MemoryCache.set c k v ttl now).map Prod.fst).Nodup := by
  unfold MemoryCache.set MemoryCache.evictOldest
  by_cases hc : MemoryCache.maxSize ≤ c.length
  · simp only [hc, if_true]
    exact keys_nodup_mapSet _ _ _ (keys_nodup_foldl_mapDelete _ _ h)
  · simp only [hc, if_false]
    exact keys_nodup_mapSet _ _ _ h

theorem length_set_le (c : MemoryCache.Store α) (k : String) (v : α) (ttl now : Int)
    (hnd : (c.map Prod.fst).Nodup) (hlen : c.length ≤ MemoryCache.maxSize) :
    (MemoryCache.set c k v ttl now).length ≤ MemoryCache.maxSize := by
  unfold MemoryCache.set
  by_cases hc : MemoryCache.maxSize ≤ c.length
  · simp only [hc, if_true]
    rw [evictOldest_eq_drop c hnd]
    have h1 := length_mapSet_le k (⟨v, now + ttl * 1000⟩ : CacheItem α) (c.drop MemoryCache.evictCount)
    have h2 : (c.drop MemoryCache.evictCount).length = c.length - MemoryCache.evictCount :=
      List.length_drop _ _
    unfold MemoryCache.maxSize MemoryCache.evictCount at *
    omega
  · simp only [hc, if_false]
    have h1 := length_mapSet_le k (⟨v, now + ttl * 1000⟩ : CacheItem α) c
    unfold MemoryCache.maxSize at *
    omega

/-- A sequence of `set` calls, applied in order: `op = (key, value, ttlSeconds, now)`. -/
def applySets (ops : List (String × α × Int × Int)) (c : MemoryCache.Store α) :
    MemoryCache.Store α :=
  ops.foldl (fun acc op => MemoryCache.set acc op.1 op.2.1 op.2.2.1 op.2.2.2) c

theorem applySets_invariant (ops : List (String × α × Int × Int))
    (c : MemoryCache.Store α) (hnd : (c.map Prod.fst).Nodup)
    (hlen : c.length ≤ MemoryCache.maxSize) :
    ((applySets ops c).map Prod.fst).Nodup ∧ (applySets ops c).length ≤ MemoryCache.maxSize := by
  induction ops generalizing c with
  | nil => exact ⟨hnd, hlen⟩
  | cons op ops ih =>
    exact ih _ (keys_nodup_set _ _ _ _ _ hnd) (length_set_le _ _ _ _ _ hnd hlen)

/-- C6: when `set` finds the cache at capacity it evicts the oldest
`Math.floor(maxSize * 0.1) = 100` entries — the first tenth of the
capacity in insertion order (second conjunct, stated for any store with
distinct keys as `evictOldest`); consequently, starting from the empty
cache, after any sequence of `set` operations the size never exceeds the
capacity `maxSize = 1000` — in particular after inserting `maxSize + 100`
distinct keys (first conjunct). -/
theorem localCache_bounded_growth :
    (∀ (ops : List (String × Nat × Int × Int)),
        (applySets ops ([] : MemoryCache.Store Nat)).length ≤ MemoryCache.maxSize) ∧
    (∀ (c : MemoryCache.Store Nat), (c.map Prod.fst).Nodup →
        MemoryCache.evictOldest c = c.drop MemoryCache.evictCount) := by
  constructor
  · intro ops
    exact (applySets_invariant ops [] (by simp) (by simp [MemoryCache.maxSize])).2
  · intro c h
    exact evictOldest_eq_drop c h

/-- C6 witness: concrete instances of both conjuncts. -/
theorem localCache_bounded_growth_witness :
    (applySets [("k", 1, 60, 0)] ([] : MemoryCache.Store Nat)).length ≤ MemoryCache.maxSize ∧
    MemoryCache.evictOldest ([("a", ⟨0, 5⟩), ("b", ⟨1, 5⟩)] : MemoryCache.Store Nat) = [] := by
  constructor
  · exact localCache_bounded_growth.1 [("k", 1, 60, 0)]
  · rw [localCache_bounded_growth.2 [("a", ⟨0, 5⟩), ("b", ⟨1, 5⟩)] (by decide)]
    decide

/-! ### C7 — round-trip and lazy expiry -/

theorem mapGet_set_self (c : MemoryCache.Store α) (k : String) (v : α) (ttl now : Int) :
    mapGet k (MemoryCache.set c k v ttl now) = some ⟨v, now + ttl * 1000⟩ := by
  unfold MemoryCache.set
  exact mapGet_mapSet_self _ _ _

/-- C7: for every key, value and `ttl > 0`, a `set` immediately followed
by a `get` (at the same `now`) returns the value; once `now' >
expiresAt = now + ttl·1000`, `get` returns absent, `exists` returns
`false`, the expired entry is deleted by that very read, and a `get`
after the periodic sweep (`cleanup`) has run also returns absent. -/
theorem memoryCache_roundtrip_expiry (c : MemoryCache.Store α) (k : String) (v : α)
    (ttl now now' : Int) (httl : 0 < ttl) :
    ((MemoryCache.get (MemoryCache.set c k v ttl now) k now).1 = some v) ∧
    (now + ttl * 1000 < now' →
      (MemoryCache.get (MemoryCache.set c k v ttl now) k now').1 = none ∧
      (MemoryCache.existsKey (MemoryCache.set c k v ttl now) k now').1 = false ∧
      mapGet k (MemoryCache.get (MemoryCache.set c k v ttl now) k now').2 = none ∧
      (MemoryCache.get (MemoryCache.cleanup (MemoryCache.set c k v ttl now) now') k now').1
        = none) := by
  have hget := mapGet_set_self c k v ttl now
  constructor
  · rw [MemoryCache.get, hget]
    have : ¬ (now + ttl * 1000 < now) := by
      have : (0 : Int) < ttl * 1000 := mul_pos httl (by norm_num)
      omega
    simp only [this, if_false]
  · intro hexp
    refine ⟨?_, ?_, ?_, ?_⟩
    · rw [MemoryCache.get, hget]
      simp only [hexp, if_true]
    · rw [MemoryCache.existsKey, hget]
      simp only [hexp, if_true]
    · rw [MemoryCache.get, hget]
      simp only [hexp, if_true]
      exact mapGet_mapDelete_self _ _
    · have hmemb : (k, (⟨v, now + ttl * 1000⟩ : CacheItem α)) ∈ MemoryCache.set c k v ttl now :=
        mapGet_some_mem _ _ _ hget
      have hkeymem : k ∈ ((MemoryCache.set c k v ttl now).filter
          (fun e => decide (e.2.expiresAt < now'))).map Prod.fst :=
        List.mem_map.mpr ⟨(k, ⟨v, now + ttl * 1000⟩),
          List.mem_filter.mpr ⟨hmemb, by simpa using hexp⟩, rfl⟩
      have hclean : mapGet k (MemoryCache.cleanup (MemoryCache.set c k v ttl now) now') = none := by
        unfold MemoryCache.cleanup
        rw [foldl_mapDelete_eq_filter]
        exact mapGet_filter_notmem _ _ _ hkeymem
      rw [MemoryCache.get, hclean]

/-- C7 witness: value `7` is readable right after the `set` and gone at
`now' = 1001 > 0 + 1·1000`. -/
theorem memoryCache_roundtrip_expiry_witness :
    ((MemoryCache.get (MemoryCache.set ([] : MemoryCache.Store Nat) "x" 7 1 0) "x" 0).1
        = some 7) ∧
    ((MemoryCache.get (MemoryCache.set ([] : MemoryCache.Store Nat) "x" 7 1 0) "x" 1001).1
        = none) :=
  ⟨(memoryCache_roundtrip_expiry [] "x" 7 1 0 1001 (by decide)).1,
   ((memoryCache_roundtrip_expiry [] "x" 7 1 0 1001 (by decide)).2 (by decide)).1⟩

/-! ### C9 — no TTL validation -/

/-- C9 (counterexample): the claim says a `set` with `ttlSeconds ≤ 0` is
rejected. It is accepted: `set` with `ttlSeconds = -3` (and with `0`)
stores an entry — the method body has no validation at all. -/
theorem set_nonpositive_ttl_accepted :
    MemoryCache.set ([] : MemoryCache.Store Nat) "k" 5 (-3) 100 = [("k", ⟨5, -2900⟩)] ∧
    mapGet "k" (MemoryCache.set ([] : MemoryCache.Store Nat) "k" 5 0 100) = some ⟨5, 100⟩ := by
  decide

/-- C9 (amended): `MemoryCacheService` never raises — `get`, `exists`,
`set` and `del` are total, and on a missing key `get`/`exists` return
absent/`false` and leave the store unchanged — but it performs no TTL
validation: a `set` with `ttlSeconds ≤ 0` is accepted and stores an entry
with `expiresAt = now + ttl·1000 ≤ now`, which every read strictly after
`now` treats as expired. -/
theorem memoryCache_total_no_ttl_validation (c : MemoryCache.Store α) (k : String) (v : α)
    (ttl now : Int) (httl : ttl ≤ 0) :
    (mapGet k c = none →
      MemoryCache.get c k now = (none, c) ∧ MemoryCache.existsKey c k now = (false, c)) ∧
    mapGet k (MemoryCache.set c k v ttl now) = some ⟨v, now + ttl * 1000⟩ ∧
    (∀ t : Int, now < t → (MemoryCache.get (MemoryCache.set c k v ttl now) k t).1 = none) := by
  refine ⟨?_, mapGet_set_self c k v ttl now, ?_⟩
  · intro hmiss
    rw [MemoryCache.get, MemoryCache.existsKey, hmiss]
    exact ⟨rfl, rfl⟩
  · intro t ht
    rw [MemoryCache.get, mapGet_set_self c k v ttl now]
    have : now + ttl * 1000 < t := by
      have : ttl * 1000 ≤ 0 := mul_nonpos_iff.mpr (Or.inr ⟨httl, by norm_num⟩)
      omega
    simp only [this, if_true]

/-- C9 witness: a concrete `set` with `ttlSeconds = -3` is stored and
reads as absent one millisecond later. -/
theorem memoryCache_total_no_ttl_validation_witness :
    mapGet "k" (MemoryCache.set ([] : MemoryCache.Store Nat) "k" 5 (-3) 100)
        = some ⟨5, -2900⟩ ∧
    (MemoryCache.get (MemoryCache.set ([] : MemoryCache.Store Nat) "k" 5 (-3) 100) "k" 101).1
        = none := by
  have h := memoryCache_total_no_ttl_validation ([] : MemoryCache.Store Nat) "k" 5 (-3) 100
    (by decide)
  exact ⟨by simpa using h.2.1, h.2.2 101 (by decide)⟩

/-! ### C2 — the coordinator never propagates a cache-layer exception -/

/-- C2: whatever the remote backend does — unavailable, or any call
throwing — `CacheService.get/set/del/delPattern/exists` return normally:
(1)–(5) no outcome is ever an exception, for every availability flag and
every outcome of the remote and local calls; (6)–(7) when the remote is
unavailable, or its call throws, `get` falls back to the local cache's
answer; (8)–(9) when the local fallback of `get` itself throws, `get`
returns absent (`null`) instead of raising. -/
theorem cacheService_never_throws (α : Type) :
    (∀ (avail : Bool) (rg lg : Except String (Option α)),
        ∃ v, CacheService.get avail rg lg = .ok v) ∧
    (∀ (avail : Bool) (rs ls : Except String Unit),
        CacheService.set avail rs ls = .ok ()) ∧
    (∀ (avail : Bool) (rd ld : Except String Unit),
        CacheService.del avail rd ld = .ok ()) ∧
    (∀ (avail : Bool) (rk : Except String (List String)) (rdm ldp : Except String Unit),
        CacheService.delPattern avail rk rdm ldp = .ok ()) ∧
    (∀ (avail : Bool) (re : Except String Int) (le : Except String Bool),
        ∃ b, CacheService.existsOp avail re le = .ok b) ∧
    (∀ (rg : Except String (Option α)) (v : Option α),
        CacheService.get false rg (.ok v) = .ok v) ∧
    (∀ (e : String) (v : Option α),
        CacheService.get true (.error e) (.ok v) = .ok v) ∧
    (∀ (avail : Bool) (e e' : String),
        CacheService.get avail (.error e) (.error e' : Except String (Option α)) = .ok none) ∧
    (∀ (rg : Except String (Option α)) (e' : String),
        CacheService.get false rg (.error e') = .ok none) := by
  refine ⟨?_, ?_, ?_, ?_, ?_, ?_, ?_, ?_, ?_⟩
  · intro avail rg lg
    cases avail <;> cases rg <;> cases lg <;> simp [CacheService.get]
  · intro avail rs ls
    cases avail <;> cases rs <;> cases ls <;> simp [CacheService.set]
  · intro avail rd ld
    cases avail <;> cases rd <;> cases ld <;> simp [CacheService.del]
  · intro avail rk rdm ldp
    cases avail <;> cases rk <;> cases rdm <;> cases ldp <;>
      simp [CacheService.delPattern] <;> split <;> rfl
  · intro avail re le
    cases avail <;> cases re <;> cases le <;> simp [CacheService.existsOp]
  · intro rg v
    rfl
  · intro e v
    rfl
  · intro avail e e'
    cases avail <;> rfl
  · intro rg e'
    cases rg <;> rfl

/-! ### C8 — atomic increment sets the TTL only on the first increment -/

/-- C8: on the available-and-successful remote path, `increment` performs
one `incr` on the remote store — the returned value is the old value
(absent = 0) plus one and the store is updated to it — and runs `expire`
exactly when the post-increment value is `1`: the TTL map is written when
the counter was absent or `0`, and on any increment of a key whose counter
is already at least `1` (in particular any increment after the first) the
TTL map is left untouched. -/
theorem increment_remote_first_only (s : CacheService.RedisState)
    (mem : MemoryCache.Store Int) (k : String) (ttl now : Int) :
    ((CacheService.increment true s mem k ttl now).1 = (mapGet k s.entries).getD 0 + 1) ∧
    ((CacheService.increment true s mem k ttl now).2.1.entries
        = mapSet k ((mapGet k s.entries).getD 0 + 1) s.entries) ∧
    ((CacheService.increment true s mem k ttl now).1 = 1 →
        (CacheService.increment true s mem k ttl now).2.1.ttls = mapSet k ttl s.ttls) ∧
    ((CacheService.increment true s mem k ttl now).1 ≠ 1 →
        (CacheService.increment true s mem k ttl now).2.1.ttls = s.ttls) ∧
    (∀ n : Int, mapGet k s.entries = some n → 1 ≤ n →
        (CacheService.increment true s mem k ttl now).2.1.ttls = s.ttls) := by
  refine ⟨?_, ?_, ?_, ?_, ?_⟩
  · simp [CacheService.increment, CacheService.redisIncr]
  · simp only [CacheService.increment, CacheService.redisIncr, CacheService.redisExpire,
      if_true]
    split <;> rfl
  · intro h1
    simp only [CacheService.increment, CacheService.redisIncr] at h1 ⊢
    simp only [if_true] at h1 ⊢
    rw [if_pos (by exact beq_iff_eq.mpr h1)]
    rfl
  · intro h1
    simp only [CacheService.increment, CacheService.redisIncr] at h1 ⊢
    simp only [if_true] at h1 ⊢
    rw [if_neg (by simpa using h1)]
  · intro n hn hge
    have hb : ((mapGet k s.entries).getD 0 + 1 == 1) = false := by
      rw [beq_eq_false_iff_ne, hn]
      simp only [Option.getD_some]
      omega
    simp only [CacheService.increment, CacheService.redisIncr, hb, Bool.false_eq_true,
      if_false, if_true]

/-- C8 witness: on an absent counter the increment returns `1` and records
the TTL; incrementing the resulting state returns `2` and leaves the TTL
map as it was. -/
theorem increment_remote_first_only_witness :
    ((CacheService.increment true ⟨[], []⟩ [] "k" 60 0).1 = 1) ∧
    ((CacheService.increment true ⟨[], []⟩ [] "k" 60 0).2.1.ttls = [("k", 60)]) ∧
    ((CacheService.increment true ⟨[("k", 1)], [("k", 60)]⟩ [] "k" 60 0).1 = 2) ∧
    ((CacheService.increment true ⟨[("k", 1)], [("k", 60)]⟩ [] "k" 60 0).2.1.ttls
        = [("k", 60)]) := by
  have h1 := increment_remote_first_only ⟨[], []⟩ [] "k" 60 0
  have h2 := increment_remote_first_only ⟨[("k", 1)], [("k", 60)]⟩ [] "k" 60 0
  refine ⟨by simpa using h1.1, ?_, by simpa using h2.1, ?_⟩
  · rw [h1.2.2.1 (by decide)]
    decide
  · rw [h2.2.2.2.2 1 (by decide) (by decide)]

/-! ### C3 — fetch errors propagate unchanged and leave the cache alone -/

/-- C3: on the path where the cache probe misses (the only path on which
the underlying fetch runs at all), if the page fetch throws `e` — or the
page fetch succeeds and the count fetch throws `e` — then
`optimizePaginatedQuery` returns exactly `e` and the cache state after the
call equals the cache state before it: the error is not caught, retried or
masked, and no cache entry is written. -/
theorem optimizePaginatedQuery_error_transparent {ε ρ : Type} (e : ε) (page limit : Int)
    (cacheKey : Option String) (options : QueryOptimizer.Options)
    (cache : QueryOptimizer.Cache (QueryOptimizer.PagedResult ρ))
    (hmiss : QueryOptimizer.cachedLookup (QueryOptimizer.mergeOptions options) cacheKey cache
        = none) :
    (∀ fetchCount : Except ε Int,
        QueryOptimizer.optimizePaginatedQuery (fun _ _ => .error e) fetchCount
            page limit cacheKey options cache = (.error e, cache)) ∧
    (∀ rowsFn : Int → Int → List ρ,
        QueryOptimizer.optimizePaginatedQuery (fun o l => .ok (rowsFn o l)) (.error e)
            page limit cacheKey options cache = (.error e, cache)) := by
  constructor
  · intro fetchCount
    simp only [QueryOptimizer.optimizePaginatedQuery, hmiss]
  · intro rowsFn
    simp only [QueryOptimizer.optimizePaginatedQuery, hmiss]

/-- C3 witness: with a failing page fetch (and with a failing count fetch)
over an empty cache, the error `"boom"` comes back verbatim and the cache
is still empty. -/
theorem optimizePaginatedQuery_error_transparent_witness :
    (QueryOptimizer.optimizePaginatedQuery (ρ := Nat) (fun _ _ => .error "boom") (.ok 0)
        1 10 (some "k") {} [] = (.error "boom", [])) ∧
    (QueryOptimizer.optimizePaginatedQuery (ρ := Nat)
        (fun o l => (.ok [(o + l).toNat] : Except String (List Nat)))
        (.error "boom") 1 10 (some "k") {} [] = (.error "boom", [])) := by
  have h := optimizePaginatedQuery_error_transparent (ρ := Nat) "boom" 1 10 (some "k") {} []
    (by decide)
  exact ⟨h.1 (.ok 0), h.2 (fun o l => [(o + l).toNat])⟩

/-! ### C5 — limit clamping, offset computation, length and total -/

/-- C5: `optimizePaginatedQuery` clamps the limit to
`min(limit, maxLimit || 100)` and computes `offset = (page-1) ·
clampedLimit` before fetching (so with the default options the clamp is
`min limit 100`, and with `page = 2`, `limit = 10` the offset is `10`);
on a cache miss the page fetch is invoked at exactly that offset and
clamped limit, the returned `data` is the fetched page — of length at
most the clamped limit — and the returned `total` is the fetcher's count. -/
theorem optimizePaginatedQuery_clamps {ε ρ : Type} (rows : List ρ) (page limit : Int)
    (cacheKey : Option String) (options : QueryOptimizer.Options)
    (cache : QueryOptimizer.Cache (QueryOptimizer.PagedResult ρ))
    (hmiss : QueryOptimizer.cachedLookup (QueryOptimizer.mergeOptions options) cacheKey cache
        = none) :
    ((QueryOptimizer.optimizePaginatedQuery
            (fun o l => (.ok (QueryOptimizer.getManySkipTake rows o l) : Except ε (List ρ)))
            (.ok (rows.length : Int)) page limit cacheKey options cache).1
          = .ok ⟨QueryOptimizer.getManySkipTake rows
                (QueryOptimizer.offsetOf page limit (QueryOptimizer.mergeOptions options))
                (QueryOptimizer.safeLimitOf limit (QueryOptimizer.mergeOptions options)),
              (rows.length : Int)⟩) ∧
    (QueryOptimizer.getManySkipTake rows
        (QueryOptimizer.offsetOf page limit (QueryOptimizer.mergeOptions options))
        (QueryOptimizer.safeLimitOf limit (QueryOptimizer.mergeOptions options))).length
      ≤ (QueryOptimizer.safeLimitOf limit (QueryOptimizer.mergeOptions options)).toNat ∧
    QueryOptimizer.safeLimitOf limit (QueryOptimizer.mergeOptions {}) = min limit 100 ∧
    QueryOptimizer.offsetOf 2 10 (QueryOptimizer.mergeOptions {}) = 10 := by
  refine ⟨?_, ?_, rfl, by decide⟩
  · simp only [QueryOptimizer.optimizePaginatedQuery, hmiss]
  · unfold QueryOptimizer.getManySkipTake
    rw [List.length_take]
    exact min_le_left _ _

/-- C5 witness: three rows, page 2, limit 2 over an empty cache: the call
returns the second page `[30]` and total `3`. -/
theorem optimizePaginatedQuery_clamps_witness :
    (QueryOptimizer.optimizePaginatedQuery
        (fun o l => (.ok (QueryOptimizer.getManySkipTake [10, 20, 30] o l)
          : Except String (List Nat)))
        (.ok (([10, 20, 30] : List Nat).length : Int)) 2 2 (none : Option String) {}
        ([] : QueryOptimizer.Cache (QueryOptimizer.PagedResult Nat))).1
      = .ok ⟨[30], 3⟩ := by
  have hc := (optimizePaginatedQuery_clamps (ε := String)
    ([10, 20, 30] : List Nat) 2 2 none {} [] (by decide)).1
  rw [hc]
  rfl

/-! ### C10 — empty results are never cached -/

/-- C10: with caching enabled and a (truthy) cache key supplied, on a
cache miss `optimizeQuery` writes no cache entry when the query result is
empty — the cache state is unchanged, so the query is recomputed on every
subsequent call — while a non-empty result is stored under the key with
the configured TTL. -/
theorem optimizeQuery_empty_not_cached {ε ρ : Type} (k : String)
    (options : QueryOptimizer.Options) (cache : QueryOptimizer.Cache (List ρ))
    (hk : QueryOptimizer.keyTruthy (some k) = true)
    (hen : (QueryOptimizer.mergeOptions options).enableCache = true)
    (hmiss : QueryOptimizer.cachedLookup (QueryOptimizer.mergeOptions options) (some k) cache
        = none) :
    (QueryOptimizer.optimizeQuery ((.ok ([] : List ρ)) : Except ε (List ρ)) (some k)
        options cache = (.ok [], cache)) ∧
    (∀ r : List ρ, r ≠ [] →
        QueryOptimizer.optimizeQuery ((.ok r) : Except ε (List ρ)) (some k) options cache
          = (.ok r, mapSet k (r, (QueryOptimizer.mergeOptions options).cacheTTL) cache)) := by
  constructor
  · simp only [QueryOptimizer.optimizeQuery, hmiss]
    simp
  · intro r hr
    have hlen : 0 < r.length := List.length_pos.mpr hr
    simp only [QueryOptimizer.optimizeQuery, hmiss, hen, hk, hlen, decide_eq_true_eq,
      Bool.and_true, Bool.true_and, if_true, QueryOptimizer.cacheWrite]

/-- C10 witness: over an empty cache, an empty result leaves the cache
empty, and the result `[5]` is stored under `"k"` with the default TTL 300. -/
theorem optimizeQuery_empty_not_cached_witness :
    (QueryOptimizer.optimizeQuery ((.ok ([] : List Nat)) : Except String (List Nat))
        (some "k") {} [] = (.ok [], [])) ∧
    (QueryOptimizer.optimizeQuery ((.ok [5]) : Except String (List Nat)) (some "k") {}
        ([] : QueryOptimizer.Cache (List Nat)) = (.ok [5], [("k", ([5], 300))])) := by
  have h := optimizeQuery_empty_not_cached (ε := String) (ρ := Nat) "k" {} [] (by decide)
    (by decide) (by decide)
  exact ⟨h.1, by simpa using h.2 [5] (by decide)⟩

/-! ### C4 — cache keys are insensitive to filter order -/

/-- Looking a key up in two permuted association lists with distinct keys
gives the same answer. -/
theorem perm_mapGet (k : String) :
    ∀ {f g : List (String × β)}, f.Perm g → (f.map Prod.fst).Nodup →
      mapGet k f = mapGet k g := by
  intro f g h
  induction h with
  | nil =>
    intro _
    rfl
  | cons x h ih =>
    intro hnd
    obtain ⟨kx, vx⟩ := x
    simp only [List.map_cons, List.nodup_cons] at hnd
    by_cases hk : kx = k
    · rw [mapGet, mapGet, if_pos hk, if_pos hk]
    · rw [mapGet, mapGet, if_neg hk, if_neg hk]
      exact ih hnd.2
  | swap x y l =>
    intro hnd
    obtain ⟨kx, vx⟩ := x
    obtain ⟨ky, vy⟩ := y
    simp only [List.map_cons, List.nodup_cons, List.mem_cons] at hnd
    have hne : ky ≠ kx := fun h => hnd.1 (Or.inl h)
    by_cases hky : ky = k
    · have hkx : kx ≠ k := fun h => hne (hky.trans h.symm)
      simp [mapGet, hky, hkx]
    · by_cases hkx : kx = k
      · simp [mapGet, hky, hkx]
      · simp [mapGet, hky, hkx]
  | trans h1 h2 ih1 ih2 =>
    intro hnd
    exact (ih1 hnd).trans (ih2 (((h1.map Prod.fst).nodup_iff).mp hnd))

/-- C4: `generateCacheKey` is a pure total function of its arguments
(defined without side effects for every well-formed filter map), and it is
insensitive to the insertion/iteration order of the filter map: for any
two filter maps holding the same key-value pairs in any order (with the
keys of a map distinct, as the keys of a JS object are) it returns the
same string — in particular for
`{location: "NY", salaryMin: 60000}` versus
`{salaryMin: 60000, location: "NY"}` with `{page: 1, limit: 10}`. -/
theorem generateCacheKey_order_insensitive :
    (∀ (entityName operation : String) (f g : List (String × String))
        (pagination : Option (Int × Int)), f.Perm g → (f.map Prod.fst).Nodup →
        QueryOptimizer.generateCacheKey entityName operation f pagination
          = QueryOptimizer.generateCacheKey entityName operation g pagination) ∧
    QueryOptimizer.generateCacheKey "Job" "getJobs"
        [("location", "NY"), ("salaryMin", "60000")] (some (1, 10))
      = QueryOptimizer.generateCacheKey "Job" "getJobs"
        [("salaryMin", "60000"), ("location", "NY")] (some (1, 10)) := by
  constructor
  · intro entityName operation f g pagination hperm hnd
    have hgnd : (g.map Prod.fst).Nodup := ((hperm.map Prod.fst).nodup_iff).mp hnd
    have hkeys :
        QueryOptimizer.sortKeys (f.map Prod.fst) = QueryOptimizer.sortKeys (g.map Prod.fst) := by
      have hp : (QueryOptimizer.sortKeys (f.map Prod.fst)).Perm
          (QueryOptimizer.sortKeys (g.map Prod.fst)) :=
        ((QueryOptimizer.sortKeys_perm _).trans (hperm.map Prod.fst)).trans
          (QueryOptimizer.sortKeys_perm _).symm
      haveI : IsAntisymm String (fun a b => QueryOptimizer.strLe a b = true) :=
        ⟨QueryOptimizer.strLe_antisymm⟩
      exact List.eq_of_perm_of_sorted hp (QueryOptimizer.sortKeys_sorted _)
        (QueryOptimizer.sortKeys_sorted _)
    have hlookup : ∀ x : String, mapGet x f = mapGet x g := fun x => perm_mapGet x hperm hnd
    unfold QueryOptimizer.generateCacheKey
    rw [hkeys]
    have : (fun x => x ++ ":" ++ (mapGet x f).getD "")
        = (fun x => x ++ ":" ++ (mapGet x g).getD "") := by
      funext x
      rw [hlookup x]
    rw [this]
  · decide

/-- C4 witness: the order-insensitivity applied to the two concrete filter
maps of the claim. -/
theorem generateCacheKey_order_insensitive_witness :
    QueryOptimizer.generateCacheKey "Job" "getJobs"
        [("location", "NY"), ("salaryMin", "60000")] (some (1, 10))
      = QueryOptimizer.generateCacheKey "Job" "getJobs"
        [("salaryMin", "60000"), ("location", "NY")] (some (1, 10)) :=
  generateCacheKey_order_insensitive.1 "Job" "getJobs"
    [("location", "NY"), ("salaryMin", "60000")]
    [("salaryMin", "60000"), ("location", "NY")] (some (1, 10))
    (List.Perm.swap ("salaryMin", "60000") ("location", "NY") [])
    (by decide)

end JobBoard
